import Mathlib

/-
Verification development for the video preprocessing pipeline in
src/code/preprocess.py.

The pipeline is shallowly embedded: numpy / python level computations are
translated into executable Lean functions over ℚ, ℤ, ℕ and lists, external
collaborators (the CNN encoder, librosa's mfcc) are opaque function
parameters constrained only by their documented contracts, and python
exceptions are modelled with Option / explicit abort flags.
-/

/-- numpy rounding (`np.round`): round to the nearest integer, ties to the
even integer (banker's rounding), embedded over ℚ. -/
def npRound (q : ℚ) : ℤ :=
  if Int.fract q < 1 / 2 then ⌊q⌋
  else if 1 / 2 < Int.fract q then ⌊q⌋ + 1
  else if ⌊q⌋ % 2 = 0 then ⌊q⌋ else ⌊q⌋ + 1

/-- numpy `np.linspace(start, stop, num)` with the default endpoint=True,
embedded over ℚ: `num` evenly spaced values from `start` to `stop`
inclusive; `num = 1` yields just `start`. -/
def npLinspace (start stop : ℚ) (num : ℕ) : List ℚ :=
  if num = 0 then []
  else if num = 1 then [start]
  else (List.range num).map
    (fun i : ℕ => start + (i : ℚ) * ((stop - start) / ((num : ℚ) - 1)))

/-- The frame sampler of `extract_image_feats` (preprocess.py lines 63-66):
`samples = np.round(np.linspace(0, len(image_list) - 1, n_frame_steps))`,
each sample then used as `int(sample)`; the values produced by `np.round`
are already integral, so `int` is the identity on them. -/
def sampleIndices (L n : ℕ) : List ℤ :=
  (npLinspace 0 ((L : ℚ) - 1) n).map npRound

/-- Python list indexing `xs[i]`: a negative index counts from the end; an
index that is still out of range raises IndexError, modelled as `none`. -/
def pyIndex {α : Type} (xs : List α) (i : ℤ) : Option α :=
  if 0 ≤ i then xs.get? i.toNat
  else if 0 ≤ i + xs.length then xs.get? (i + xs.length).toNat
  else none

/-- A python list comprehension `[p a for a in l]` where evaluating `p`
may raise: the first raise aborts the whole comprehension (`none`). -/
def optMapList {α β : Type} (p : α → Option β) : List α → Option (List β)
  | [] => some []
  | a :: as =>
    match p a with
    | none => none
    | some b =>
      match optMapList p as with
      | none => none
      | some bs => some (b :: bs)

/-- The sampled-frame list of `extract_image_feats` (line 66):
`image_list = [image_list[int(sample)] for sample in samples]`. -/
def sampledFrames {α : Type} (frames : List α) (n : ℕ) : Option (List α) :=
  optMapList (pyIndex frames) (sampleIndices frames.length n)

/-- numpy / torch `squeeze()` on a shape: every axis of extent 1 is
removed (preprocess.py line 73 applies it to the whole image batch). -/
def npSqueezeShape (shape : List ℕ) : List ℕ :=
  shape.filter (fun d => d ≠ 1)

/-- The batched encoder call of line 73, `model(images.cuda().squeeze())`,
with the opaque per-image encoder `f`. The batch tensor has shape
`[len(image_list), C, H, W]` with `C = 3`, `H = W = 224 ∨ 299`, so
`squeeze()` (see `npSqueezeShape`) removes exactly the batch axis when the
batch holds a single image; the encoder then no longer receives a batch of
images and cannot return a `[1, D]` tensor (modelled as `none`).
Otherwise the Feature Encoder Adapter contract applies: one output row per
input image, in input order. -/
def encodeBatch {α β : Type} (f : α → β) (imgs : List α) : Option (List β) :=
  if imgs.length = 1 then none else some (imgs.map f)

/-- Rows of the `video.npy` tensor saved for one video by
`extract_image_feats` (lines 63-76): sample the frames, encode the batch. -/
def extractSavedRows {α β : Type} (f : α → β) (frames : List α) (n : ℕ) :
    Option (List β) :=
  (sampledFrames frames n).bind (encodeBatch f)

/-- The per-video loop of `extract_image_feats` (lines 56-79). The loop
body has no exception handler, so an exception raised while processing one
video propagates out of the whole function: videos after it are not
processed. The boolean records whether the run was aborted this way. -/
def extractRun {α β : Type} (f : α → β) (n : ℕ) :
    List (List α) → List (List β) × Bool
  | [] => ([], false)
  | v :: vs =>
    match extractSavedRows f v n with
    | none => ([], true)
    | some r =>
      match extractRun f n vs with
      | (rs, ab) => (r :: rs, ab)

/-- Segment-length normalization in `split_audio` (preprocess.py lines
141-144): `if audio_length <= 16000: np.pad(audio_info, (0, 16000 -
audio_length))` else `audio_info[0:16000]`. The target length is the
hard-coded constant 16000, independent of the sample rate read from the
wav file. -/
def normalizeSegment (audioInfo : List ℤ) : List ℤ :=
  if audioInfo.length ≤ 16000 then
    audioInfo ++ List.replicate (16000 - audioInfo.length) 0
  else
    audioInfo.take 16000

/-- One iteration of the segment loop of `split_audio` (lines 139-144) up
to the mfcc call: `wavfile.read` yields the pair (sample rate, samples);
only the samples drive the normalization — the sample rate is passed on to
`mfcc` but never consulted by the padding/truncation logic. -/
def processSegment (sampleRate : ℕ) (audioInfo : List ℤ) : List ℤ :=
  normalizeSegment audioInfo

/-- Modelled from the spec: `segment_samples = sample_rate × 1s` for the
segment's actual sample rate — the number of samples the claim says each
segment is normalized to. -/
def specSegmentSamples (sampleRate : ℕ) : ℕ :=
  sampleRate

/-- A numpy 2-D array: row count, column count, and the entry function
(entries outside the shape are junk and never inspected). -/
structure NpMat where
  rows : ℕ
  cols : ℕ
  entry : ℕ → ℕ → ℚ

/-- numpy `np.zeros((r, c))`. -/
def npZeros (r c : ℕ) : NpMat :=
  ⟨r, c, fun _ _ => 0⟩

/-- numpy `np.concatenate((A, B), axis=1)`: raises (modelled `none`) unless
the row counts agree. -/
def npConcatCols (A B : NpMat) : Option NpMat :=
  if A.rows = B.rows then
    some ⟨A.rows, A.cols + B.cols,
      fun i j => if j < A.cols then A.entry i j else B.entry i (j - A.cols)⟩
  else none

/-- numpy transpose `M.T`. -/
def npTranspose (A : NpMat) : NpMat :=
  ⟨A.cols, A.rows, fun i j => A.entry j i⟩

/-- The accumulation loop of `split_audio` (lines 136-148): starting from
`np.zeros((20, 0))`, concatenate each listed segment's mfcc matrix along
axis 1; a shape mismatch raises out of the loop (`none`). `f` is the
opaque composite `mfcc ∘ read/normalize` for one segment file, and `segs`
is in the order `os.listdir(dst)` returns the segment files — the loop
itself imposes no ordering. -/
def concatSegs {σ : Type} (f : σ → NpMat) : List σ → NpMat → Option NpMat
  | [], acc => some acc
  | s :: ss, acc =>
    match npConcatCols acc (f s) with
    | none => none
    | some acc2 => concatSegs f ss acc2

/-- The `audio.npy` array saved for one track by `split_audio` (lines
136-151): the accumulated concatenation, transposed (`output.T`). -/
def splitAudioOutput {σ : Type} (f : σ → NpMat) (segs : List σ) : Option NpMat :=
  (concatSegs f segs (npZeros 20 0)).map npTranspose

/-- A concrete stand-in for the opaque per-segment mfcc matrix: segment
`s` yields a 20 × 1 coefficient matrix whose entries all equal `s`, so
distinct segments have distinguishable columns. -/
def mfccStub (s : ℕ) : NpMat :=
  ⟨20, 1, fun _ _ => (s : ℚ)⟩

/-- The transient-file state of one video's output directory during
`extract_image_feats`: how many per-frame `.jpg` files are on disk and
whether `video.npy` has been saved. -/
structure VideoFS where
  jpgCount : ℕ
  npySaved : Bool
deriving DecidableEq

/-- Line 62: `extract_frame(video, dst)` writes one `.jpg` per decoded
frame into the video's output directory. -/
def extractFramesStep (L : ℕ) (fs : VideoFS) : VideoFS :=
  ⟨L, fs.npySaved⟩

/-- Line 73: the encoder forward call; it can raise (CUDA error, shape
error), modelled by `ok = false`. -/
def encodeStep (ok : Bool) (fs : VideoFS) : Except String VideoFS :=
  if ok then Except.ok fs else Except.error "encoder forward raised"

/-- Line 76: `np.save(outfile, image_feats)`. -/
def saveStep (fs : VideoFS) : VideoFS :=
  ⟨fs.jpgCount, true⟩

/-- Lines 77-79: the cleanup loop removes every `.jpg` in the directory. -/
def cleanupStep (fs : VideoFS) : VideoFS :=
  ⟨0, fs.npySaved⟩

/-- One iteration of the per-video loop of `extract_image_feats` (lines
62-79), in statement order: frames are written, the encoder runs, and only
if it returns are `np.save` and the `.jpg` cleanup loop executed. There is
no try/finally: an exception leaves the directory exactly as it was when
the exception was raised. The boolean records whether an exception
escaped the iteration. -/
def runVideoImagePipeline (L : ℕ) (encOk : Bool) : VideoFS × Bool :=
  let fs1 := extractFramesStep L ⟨0, false⟩
  match encodeStep encOk fs1 with
  | Except.error _ => (fs1, true)
  | Except.ok fs2 => (cleanupStep (saveStep fs2), false)

/-- The python module globals of preprocess.py: line 21 sets
`C, H, W = 3, 224, 224`. -/
structure PyGlobals where
  chanC : ℕ
  imgH : ℕ
  imgW : ℕ
deriving DecidableEq

/-- Module-level state after line 21. -/
def moduleGlobals : PyGlobals :=
  ⟨3, 224, 224⟩

/-- The model-selection chain of `main` (lines 190-203). Python scoping:
`main` contains assignments `C, H, W = ...` but no `global C, H, W`
declaration, so those assignments bind names local to `main`; the module
globals are returned unchanged. The first component is the local
`(C, H, W)` value each branch binds (`none` when no branch matched, in
which case only the unsupported-model message is printed). -/
def mainModelBranch (modelName : String) (g : PyGlobals) :
    Option (ℕ × ℕ × ℕ) × PyGlobals :=
  if modelName = "resnet152" then (some (3, 224, 224), g)
  else if modelName = "inception_v3" then (some (3, 299, 299), g)
  else if modelName = "vgg16" then (some (3, 224, 224), g)
  else (none, g)

/-- The shape of the batch tensor allocated by `extract_image_feats`
(line 67): `torch.zeros((len(image_list), C, H, W))`, where the function
declares `global C, H, W` (line 47) and therefore reads the module
globals — not the names `main` bound locally. -/
def extractBatchShape (modelName : String) (n : ℕ) : List ℕ :=
  [n, (mainModelBranch modelName moduleGlobals).2.chanC,
      (mainModelBranch modelName moduleGlobals).2.imgH,
      (mainModelBranch modelName moduleGlobals).2.imgW]

/-- Observable outcome of `main` after the model-selection chain. -/
structure MainImageStage where
  printedUnsupported : Bool
  raisedBeforeExtract : Bool
  videoNpyWritten : Bool
deriving DecidableEq

/-- What `main` does after the selection chain (lines 202-209): in the
unsupported case the message is printed and execution falls through to
`model.last_linear = utils.Identity()` where the local name `model` was
never bound, raising UnboundLocalError — `main` terminates before
`extract_image_feats`, which is the only writer of `video.npy`. In the
supported case `extract_image_feats` runs and saves `video.npy`. -/
def mainImageStage (modelName : String) : MainImageStage :=
  match (mainModelBranch modelName moduleGlobals).1 with
  | some _ => ⟨false, false, true⟩
  | none => ⟨true, true, false⟩

/-- Python `s.split(sep)` on a single-character separator, over the
character list of `s`: every occurrence splits, empty chunks are kept,
and the result is never the empty list. -/
def pySplit (sep : Char) : List Char → List (List Char)
  | [] => [[]]
  | c :: cs =>
    if c = sep then [] :: pySplit sep cs
    else
      match pySplit sep cs with
      | [] => [[c]]
      | t :: ts => (c :: t) :: ts

/-- The video identifier computed at preprocess.py lines 57 and 104:
`video.split("/")[-1].split(".")[0]`. Python's `[-1]` / `[0]` on the
never-empty result of `split` are modelled with `getLastD` / `headD`. -/
def videoId (path : List Char) : List Char :=
  (pySplit '.' ((pySplit '/' path).getLastD [])).headD []

lemma npRound_bounds (q : ℚ) :
    q - 1 / 2 ≤ (npRound q : ℚ) ∧ (npRound q : ℚ) ≤ q + 1 / 2 := by
  have hfr : Int.fract q = q - ⌊q⌋ := rfl
  have h0 : (0 : ℚ) ≤ Int.fract q := Int.fract_nonneg q
  have h1 : Int.fract q < 1 := Int.fract_lt_one q
  unfold npRound
  split_ifs with ha hb hc <;> constructor <;> push_cast <;> linarith
lemma npRound_mono {x y : ℚ} (hxy : x ≤ y) : npRound x ≤ npRound y := by
  by_contra hcon
  push_neg at hcon
  have hstep : npRound y + 1 ≤ npRound x := hcon
  have bx := npRound_bounds x
  have by' := npRound_bounds y
  have hcast : (npRound y : ℚ) + 1 ≤ (npRound x : ℚ) := by exact_mod_cast hstep
  have hxy' : x = y := le_antisymm hxy (by linarith [bx.2, by'.1])
  subst hxy'
  omega
lemma npLinspace_length (start stop : ℚ) (num : ℕ) :
    (npLinspace start stop num).length = num := by
  unfold npLinspace
  split_ifs with h0 h1
  · simp [h0]
  · simp [h1]
  · simp
lemma npLinspace_mem_bounds {start stop q : ℚ} {num : ℕ} (hab : start ≤ stop)
    (hq : q ∈ npLinspace start stop num) : start ≤ q ∧ q ≤ stop := by
  unfold npLinspace at hq
  split_ifs at hq with h0 h1
  · simp at hq
  · simp at hq
    subst hq
    exact ⟨le_refl _, hab⟩
  · simp only [List.mem_map, List.mem_range] at hq
    obtain ⟨i, hi, rfl⟩ := hq
    have hnum2 : 2 ≤ num := by omega
    have hn1 : (1 : ℚ) ≤ (num : ℚ) - 1 := by
      have : (2 : ℚ) ≤ (num : ℚ) := by exact_mod_cast hnum2
      linarith
    have hstep : (0 : ℚ) ≤ (stop - start) / ((num : ℚ) - 1) :=
      div_nonneg (by linarith) (by linarith)
    constructor
    · have hi0 : (0 : ℚ) ≤ (i : ℚ) := by exact_mod_cast Nat.zero_le i
      nlinarith [mul_nonneg hi0 hstep]
    · have hile : (i : ℚ) ≤ (num : ℚ) - 1 := by
        have : ((i + 1 : ℕ) : ℚ) ≤ (num : ℚ) := by exact_mod_cast hi
        push_cast at this
        linarith
      have hmul : (i : ℚ) * ((stop - start) / ((num : ℚ) - 1)) ≤
          ((num : ℚ) - 1) * ((stop - start) / ((num : ℚ) - 1)) :=
        mul_le_mul_of_nonneg_right hile hstep
      have hne : (num : ℚ) - 1 ≠ 0 := by linarith
      have hcancel : ((num : ℚ) - 1) * ((stop - start) / ((num : ℚ) - 1)) = stop - start := by
        field_simp
      linarith [hmul, hcancel.le]
lemma npLinspace_sorted {start stop : ℚ} (hab : start ≤ stop) (num : ℕ) :
    List.Sorted (· ≤ ·) (npLinspace start stop num) := by
  unfold npLinspace
  split_ifs with h0 h1
  · simp
  · simp
  · have hnum2 : 2 ≤ num := by omega
    have hn1 : (1 : ℚ) ≤ (num : ℚ) - 1 := by
      have : (2 : ℚ) ≤ (num : ℚ) := by exact_mod_cast hnum2
      linarith
    have hstep : (0 : ℚ) ≤ (stop - start) / ((num : ℚ) - 1) :=
      div_nonneg (by linarith) (by linarith)
    refine List.Pairwise.map _ ?_ (List.pairwise_lt_range num)
    intro a b hab'
    have : (a : ℚ) ≤ (b : ℚ) := by exact_mod_cast hab'.le
    have := mul_le_mul_of_nonneg_right this hstep
    linarith
lemma sampleIndices_length (L n : ℕ) : (sampleIndices L n).length = n := by
  unfold sampleIndices
  rw [List.length_map, npLinspace_length]
lemma sampleIndices_bounds (L n : ℕ) (hL : 1 ≤ L) :
    ∀ i ∈ sampleIndices L n, 0 ≤ i ∧ i ≤ (L : ℤ) - 1 := by
  intro i hi
  unfold sampleIndices at hi
  simp only [List.mem_map] at hi
  obtain ⟨q, hq, rfl⟩ := hi
  have hstop : (0 : ℚ) ≤ (L : ℚ) - 1 := by
    have : (1 : ℚ) ≤ (L : ℚ) := by exact_mod_cast hL
    linarith
  have hb := npLinspace_mem_bounds hstop hq
  have hr := npRound_bounds q
  constructor
  · have : (-1 : ℚ) < (npRound q : ℚ) := by linarith [hb.1, hr.1]
    have : (-1 : ℤ) < npRound q := by exact_mod_cast this
    omega
  · have : (npRound q : ℚ) < (L : ℚ) := by linarith [hb.2, hr.2]
    have : npRound q < (L : ℤ) := by exact_mod_cast this
    omega
lemma sampleIndices_sorted (L n : ℕ) (hL : 1 ≤ L) :
    List.Sorted (· ≤ ·) (sampleIndices L n) := by
  unfold sampleIndices
  have hstop : (0 : ℚ) ≤ (L : ℚ) - 1 := by
    have : (1 : ℚ) ≤ (L : ℚ) := by exact_mod_cast hL
    linarith
  exact List.Pairwise.map _ (fun a b h => npRound_mono h) (npLinspace_sorted hstop n)
lemma optMapList_isSome {α β : Type} (p : α → Option β) (l : List α)
    (h : ∀ a ∈ l, (p a).isSome) :
    ∃ ys, optMapList p l = some ys ∧ ys.length = l.length := by
  induction l with
  | nil => exact ⟨[], rfl, rfl⟩
  | cons a as ih =>
    have ha : (p a).isSome := h a (List.mem_cons_self a as)
    obtain ⟨b, hb⟩ := Option.isSome_iff_exists.mp ha
    obtain ⟨ys, hys, hlen⟩ := ih (fun x hx => h x (List.mem_cons_of_mem a hx))
    refine ⟨b :: ys, ?_, by simp [hlen]⟩
    simp only [optMapList, hb, hys]
lemma sampledFrames_isSome {α : Type} (frames : List α) (n : ℕ)
    (hL : frames ≠ []) :
    ∃ imgs, sampledFrames frames n = some imgs ∧ imgs.length = n := by
  have hL1 : 1 ≤ frames.length := List.length_pos.mpr hL
  have hvalid : ∀ i ∈ sampleIndices frames.length n, (pyIndex frames i).isSome := by
    intro i hi
    obtain ⟨h0, h1⟩ := sampleIndices_bounds frames.length n hL1 i hi
    have hlt : i.toNat < frames.length := by omega
    unfold pyIndex
    rw [if_pos h0, List.get?_eq_get hlt]
    rfl
  obtain ⟨ys, hys, hlen⟩ := optMapList_isSome (pyIndex frames) _ hvalid
  exact ⟨ys, hys, by rw [hlen, sampleIndices_length]⟩
lemma concatSegs_shape {σ : Type} (f : σ → NpMat) (segs : List σ) :
    ∀ acc : NpMat, (∀ s ∈ segs, (f s).rows = acc.rows) →
    ∃ M, concatSegs f segs acc = some M ∧ M.rows = acc.rows ∧
      M.cols = acc.cols + (segs.map (fun s => (f s).cols)).sum := by
  induction segs with
  | nil => intro acc _; exact ⟨acc, rfl, rfl, by simp⟩
  | cons s ss ih =>
    intro acc hrows
    have hs : (f s).rows = acc.rows := hrows s (List.mem_cons_self s ss)
    have hcc : npConcatCols acc (f s) =
        some ⟨acc.rows, acc.cols + (f s).cols,
          fun i j => if j < acc.cols then acc.entry i j else (f s).entry i (j - acc.cols)⟩ := by
      unfold npConcatCols
      rw [if_pos hs.symm]
    obtain ⟨M, hM, hMr, hMc⟩ := ih
      ⟨acc.rows, acc.cols + (f s).cols, fun i j =>
        if j < acc.cols then acc.entry i j else (f s).entry i (j - acc.cols)⟩
      (fun x hx => hrows x (List.mem_cons_of_mem s hx))
    refine ⟨M, ?_, hMr, ?_⟩
    · simp only [concatSegs, hcc]
      exact hM
    · dsimp only at hMc
      simp only [List.map_cons, List.sum_cons]
      omega

lemma pySplit_ne_nil (sep : Char) (s : List Char) : pySplit sep s ≠ [] := by
  induction s with
  | nil => simp [pySplit]
  | cons c cs ih =>
    simp only [pySplit]
    split_ifs with hc
    · simp
    · cases h : pySplit sep cs with
      | nil => simp
      | cons t ts => simp

lemma getLastD_of_ne_nil {α : Type} {l : List α} (h : l ≠ []) (d d' : α) :
    l.getLastD d = l.getLastD d' := by
  cases l with
  | nil => exact absurd rfl h
  | cons a as => rw [List.getLastD_cons, List.getLastD_cons]

lemma pySplit_of_not_mem {sep : Char} {xs : List Char} (h : sep ∉ xs) :
    pySplit sep xs = [xs] := by
  induction xs with
  | nil => rfl
  | cons c cs ih =>
    have hc : c ≠ sep := fun hh => h (hh ▸ List.mem_cons_self c cs)
    have hcs : sep ∉ cs := fun hh => h (List.mem_cons_of_mem c hh)
    simp only [pySplit]
    rw [if_neg hc, ih hcs]

lemma two_le_pySplit_length {sep : Char} {zs : List Char} (h : sep ∈ zs) :
    2 ≤ (pySplit sep zs).length := by
  induction zs with
  | nil => simp at h
  | cons c cs ih =>
    simp only [pySplit]
    by_cases hc : c = sep
    · rw [if_pos hc]
      have h1 : 1 ≤ (pySplit sep cs).length :=
        List.length_pos.mpr (pySplit_ne_nil sep cs)
      simp only [List.length_cons]
      omega
    · rw [if_neg hc]
      have hcs : sep ∈ cs := by
        rcases List.mem_cons.mp h with h' | h'
        · exact absurd h'.symm hc
        · exact h'
      have h2 := ih hcs
      cases hsp : pySplit sep cs with
      | nil => exact absurd hsp (pySplit_ne_nil sep cs)
      | cons t ts =>
        rw [hsp] at h2
        simp only [List.length_cons] at h2 ⊢
        omega

lemma pySplit_headD_append {sep : Char} {xs : List Char} (h : sep ∉ xs)
    (ys d : List Char) : (pySplit sep (xs ++ sep :: ys)).headD d = xs := by
  induction xs with
  | nil =>
    simp only [List.nil_append, pySplit, if_pos rfl]
    rfl
  | cons c cs ih =>
    have hc : c ≠ sep := fun hh => h (hh ▸ List.mem_cons_self c cs)
    have hcs : sep ∉ cs := fun hh => h (List.mem_cons_of_mem c hh)
    simp only [List.cons_append, pySplit]
    rw [if_neg hc]
    cases hsp : pySplit sep (cs ++ sep :: ys) with
    | nil => exact absurd hsp (pySplit_ne_nil _ _)
    | cons t ts =>
      have hih := ih hcs
      rw [hsp] at hih
      simp only [List.headD_cons] at hih ⊢
      rw [hih]

lemma pySplit_getLastD_append (sep : Char) (xs ys d : List Char) :
    (pySplit sep (xs ++ sep :: ys)).getLastD d = (pySplit sep ys).getLastD d := by
  induction xs with
  | nil =>
    rw [List.nil_append]
    have hsplit : pySplit sep (sep :: ys) = [] :: pySplit sep ys := by
      simp [pySplit]
    rw [hsplit, List.getLastD_cons]
    exact getLastD_of_ne_nil (pySplit_ne_nil sep ys) [] d
  | cons c cs ih =>
    by_cases hc : c = sep
    · simp only [List.cons_append, pySplit]
      rw [if_pos hc, List.getLastD_cons]
      calc (pySplit sep (cs ++ sep :: ys)).getLastD []
          = (pySplit sep (cs ++ sep :: ys)).getLastD d :=
            getLastD_of_ne_nil (pySplit_ne_nil _ _) _ _
        _ = (pySplit sep ys).getLastD d := ih
    · simp only [List.cons_append, pySplit]
      rw [if_neg hc]
      cases hsp : pySplit sep (cs ++ sep :: ys) with
      | nil => exact absurd hsp (pySplit_ne_nil _ _)
      | cons t ts =>
        have hlen : 2 ≤ (pySplit sep (cs ++ sep :: ys)).length :=
          two_le_pySplit_length
            (List.mem_append_right cs (List.mem_cons_self sep ys))
        rw [hsp] at hlen
        cases ts with
        | nil => simp at hlen
        | cons t2 ts2 =>
          have hih := ih
          rw [hsp] at hih
          rw [List.getLastD_cons] at hih ⊢
          rw [getLastD_of_ne_nil (List.cons_ne_nil t2 ts2) (c :: t) t]
          exact hih

lemma npRound_zero : npRound 0 = 0 := by
  unfold npRound
  rw [Int.fract_zero]
  norm_num

lemma pyIndex_nil {α : Type} (i : ℤ) : pyIndex ([] : List α) i = none := by
  unfold pyIndex
  split_ifs <;> rfl

lemma sampledFrames_nil {α : Type} (n : ℕ) (hn : 1 ≤ n) :
    sampledFrames ([] : List α) n = none := by
  unfold sampledFrames
  have hne : sampleIndices ([] : List α).length n ≠ [] := by
    intro h
    have hlen := sampleIndices_length ([] : List α).length n
    rw [h] at hlen
    simp at hlen
    omega
  cases hl : sampleIndices ([] : List α).length n with
  | nil => exact absurd hl hne
  | cons a as => simp [optMapList, pyIndex_nil]

lemma extractSavedRows_spec {α β : Type} (f : α → β) (frames : List α) (n : ℕ)
    (hL : frames ≠ []) (hn : 2 ≤ n) :
    ∃ imgs, sampledFrames frames n = some imgs ∧ imgs.length = n ∧
      extractSavedRows f frames n = some (imgs.map f) ∧ (imgs.map f).length = n := by
  obtain ⟨imgs, himgs, hlen⟩ := sampledFrames_isSome frames n hL
  refine ⟨imgs, himgs, hlen, ?_, by simp [hlen]⟩
  unfold extractSavedRows
  rw [himgs]
  show encodeBatch f imgs = some (imgs.map f)
  unfold encodeBatch
  rw [if_neg (by omega)]

/-- C1: for every frame-sequence length L ≥ 1 and every n_frame_steps ≥ 1,
the frame sampler returns exactly n_frame_steps indices, each index lying
in [0, L-1], and the sequence of returned indices is monotonically
non-decreasing. -/
theorem frameSampler_count_range_monotone (L n : ℕ) (hL : 1 ≤ L) (hn : 1 ≤ n) :
    (sampleIndices L n).length = n ∧
    (∀ i ∈ sampleIndices L n, 0 ≤ i ∧ i ≤ (L : ℤ) - 1) ∧
    List.Sorted (· ≤ ·) (sampleIndices L n) :=
  ⟨sampleIndices_length L n, sampleIndices_bounds L n hL, sampleIndices_sorted L n hL⟩

/-- C1 witness: the sampler's guarantees instantiated at L = 5, n = 3. -/
theorem frameSampler_count_range_monotone_inst :
    (sampleIndices 5 3).length = 3 ∧
    (∀ i ∈ sampleIndices 5 3, 0 ≤ i ∧ i ≤ ((5 : ℕ) : ℤ) - 1) ∧
    List.Sorted (· ≤ ·) (sampleIndices 5 3) :=
  frameSampler_count_range_monotone 5 3 (by decide) (by decide)

/-- C2 counterexample: at n_frame_steps = 1 (with one decoded frame) the
claim fails: `squeeze()` removes the batch axis of the 1 × 3 × 224 × 224
batch, the encoder no longer receives a batch of one image, and no
one-row `video.npy` tensor is produced. -/
theorem imageFeats_nsteps_one_cex :
    npSqueezeShape [1, 3, 224, 224] = [3, 224, 224] ∧
    extractSavedRows (fun x : ℕ => x) [0] 1 = none := by
  constructor
  · decide
  · have h1 : sampleIndices 1 1 = [0] := by
      unfold sampleIndices npLinspace
      norm_num [npRound_zero]
    have h2 : sampledFrames (α := ℕ) [0] 1 = some [0] := by
      unfold sampledFrames
      rw [show ([0] : List ℕ).length = 1 from rfl, h1]
      simp [optMapList, pyIndex]
    unfold extractSavedRows
    rw [h2]
    simp [encodeBatch]

/-- C2 amended: for every n_frame_steps ≥ 2 (and every nonempty frame
list), the saved tensor has exactly n_frame_steps rows, one row per
sampled frame, in sampling order; at n_frame_steps = 1 the squeeze
collapses the batch axis and no [1, D] tensor is produced. -/
theorem imageFeats_rows_eq_nsteps {α β : Type} (f : α → β) (frames : List α)
    (n : ℕ) (hL : frames ≠ []) (hn : 2 ≤ n) :
    ∃ imgs, sampledFrames frames n = some imgs ∧ imgs.length = n ∧
      extractSavedRows f frames n = some (imgs.map f) ∧ (imgs.map f).length = n :=
  extractSavedRows_spec f frames n hL hn

/-- C2 witness: three frames, n_frame_steps = 2. -/
theorem imageFeats_rows_eq_nsteps_inst :
    ([10, 20, 30] : List ℕ) ≠ [] ∧ 2 ≤ 2 ∧
    (∃ imgs, sampledFrames ([10, 20, 30] : List ℕ) 2 = some imgs ∧
      imgs.length = 2 ∧
      extractSavedRows (fun x : ℕ => x + 1) [10, 20, 30] 2 =
        some (imgs.map (fun x : ℕ => x + 1)) ∧
      (imgs.map (fun x : ℕ => x + 1)).length = 2) :=
  ⟨by decide, by decide,
    imageFeats_rows_eq_nsteps (fun x : ℕ => x + 1) [10, 20, 30] 2
      (by decide) (by decide)⟩

/-- C3 counterexample: a segment read at sample rate 8000 with exactly
sample_rate × 1s = 8000 samples is not left unmodified and is not
normalized to 8000 samples — `split_audio` pads it to the hard-coded
16000. -/
theorem audioSegment_rate_cex :
    (processSegment 8000 (List.replicate 8000 1)).length ≠ specSegmentSamples 8000 ∧
    processSegment 8000 (List.replicate 8000 1) ≠ List.replicate 8000 1 := by
  have hc : (List.replicate 8000 (1 : ℤ)).length ≤ 16000 := by
    rw [List.length_replicate]
    decide
  have hlen : (processSegment 8000 (List.replicate 8000 1)).length = 16000 := by
    unfold processSegment normalizeSegment
    rw [if_pos hc, List.length_append, List.length_replicate, List.length_replicate]
  constructor
  · rw [hlen]
    unfold specSegmentSamples
    decide
  · intro h
    rw [h, List.length_replicate] at hlen
    exact absurd hlen (by decide)

/-- C3 amended: every segment is normalized to exactly 16000 samples (one
second at the default 16000 Hz output rate), independent of the segment's
actual sample rate: zero-padded at the tail when shorter, truncated at the
tail when longer, and passed through unmodified when its length is exactly
16000. -/
theorem audioSegment_normalize16000 (sampleRate : ℕ) (audioInfo : List ℤ) :
    (processSegment sampleRate audioInfo).length = 16000 ∧
    (audioInfo.length ≤ 16000 →
      processSegment sampleRate audioInfo =
        audioInfo ++ List.replicate (16000 - audioInfo.length) 0) ∧
    (16000 < audioInfo.length →
      processSegment sampleRate audioInfo = audioInfo.take 16000) ∧
    (audioInfo.length = 16000 → processSegment sampleRate audioInfo = audioInfo) := by
  unfold processSegment normalizeSegment
  by_cases h : audioInfo.length ≤ 16000
  · rw [if_pos h]
    refine ⟨?_, fun _ => rfl, fun hgt => absurd hgt (by omega), fun he => ?_⟩
    · rw [List.length_append, List.length_replicate]
      omega
    · rw [he, Nat.sub_self, List.replicate_zero, List.append_nil]
  · rw [if_neg h]
    push_neg at h
    refine ⟨?_, fun hle => absurd hle (by omega), fun _ => rfl, fun he => by omega⟩
    rw [List.length_take]
    omega

/-- C3 witness: a 3-sample segment is tail-padded to 16000 samples. -/
theorem audioSegment_normalize16000_inst :
    ([1, 2, 3] : List ℤ).length ≤ 16000 ∧
    processSegment 16000 [1, 2, 3] =
      [1, 2, 3] ++ List.replicate (16000 - ([1, 2, 3] : List ℤ).length) 0 :=
  ⟨by decide, (audioSegment_normalize16000 16000 [1, 2, 3]).2.1 (by decide)⟩

/-- C4: `split_audio` concatenates the per-segment MFCC matrices in the
order `os.listdir` enumerates the segment files, which is not guaranteed
to be the temporal order: with the listing [01.wav, 00.wav] for a
2-segment track, the first time-row of the saved (transposed) tensor
holds segment 1's coefficients where the claim requires segment 0's. -/
theorem splitAudio_listing_order_bug :
    (splitAudioOutput mfccStub [1, 0]).map (fun M => M.entry 0 0) = some 1 ∧
    (splitAudioOutput mfccStub [0, 1]).map (fun M => M.entry 0 0) = some 0 ∧
    (splitAudioOutput mfccStub [1, 0]).map (fun M => M.entry 0 0) ≠
      (splitAudioOutput mfccStub [0, 1]).map (fun M => M.entry 0 0) := by
  refine ⟨by decide, by decide, by decide⟩

/-- C5: a video with zero decoded frames does not produce an
EmptySequence signal: indexing the empty frame list raises an uncaught
IndexError, and because the per-video loop has no handler the whole run
aborts — the following video, which alone would be processed
successfully, is never reached. -/
theorem emptyFrames_abort_run_bug :
    extractRun (fun x : ℕ => x) 80 [[], [5, 6]] = ([], true) ∧
    (extractSavedRows (fun x : ℕ => x) [5, 6] 80).isSome = true := by
  have hbad : extractSavedRows (fun x : ℕ => x) [] 80 = none := by
    unfold extractSavedRows
    rw [sampledFrames_nil 80 (by decide)]
    rfl
  constructor
  · simp [extractRun, hbad]
  · obtain ⟨imgs, _, _, heq, _⟩ :=
      extractSavedRows_spec (fun x : ℕ => x) [5, 6] 80 (by decide) (by decide)
    rw [heq]
    rfl

/-- C6: the `.jpg` cleanup loop (lines 77-79) runs only after a
successful encoder call and save; when the encoder call raises, the 30
per-frame `.jpg` files written for the video remain on disk, contradicting
the claim that no transient files remain even when a later step fails.
On the success path the cleanup does remove them all. -/
theorem transient_cleanup_skipped_bug :
    (runVideoImagePipeline 30 false).1.jpgCount = 30 ∧
    (runVideoImagePipeline 30 false).2 = true ∧
    (runVideoImagePipeline 30 true).1.jpgCount = 0 ∧
    (runVideoImagePipeline 30 true).2 = false := by
  decide

/-- C7: for every audio track whose segments each yield a 20-row MFCC
matrix, the saved `audio.npy` tensor has shape
[total MFCC frames across segments, 20]; in particular zero segments
yield the valid empty tensor of shape [0, 20]. -/
theorem audioFeats_shape {σ : Type} (f : σ → NpMat) (segs : List σ)
    (h : ∀ s ∈ segs, (f s).rows = 20) :
    ∃ M, splitAudioOutput f segs = some M ∧
      M.rows = (segs.map (fun s => (f s).cols)).sum ∧ M.cols = 20 := by
  obtain ⟨M0, hM0, hr, hc⟩ :=
    concatSegs_shape f segs (npZeros 20 0) (by simpa [npZeros] using h)
  refine ⟨npTranspose M0, ?_, ?_, ?_⟩
  · unfold splitAudioOutput
    rw [hM0]
    rfl
  · show M0.cols = _
    simpa [npZeros] using hc
  · show M0.rows = 20
    simpa [npZeros] using hr

/-- C7 witness: two segments with 20 × 1 MFCC matrices give a 2 × 20
tensor; the empty track gives the 0 × 20 tensor. -/
theorem audioFeats_shape_inst :
    (∀ s ∈ ([0, 1] : List ℕ), (mfccStub s).rows = 20) ∧
    (∃ M, splitAudioOutput mfccStub [0, 1] = some M ∧
      M.rows = (([0, 1] : List ℕ).map (fun s => (mfccStub s).cols)).sum ∧
      M.cols = 20) ∧
    (∃ M, splitAudioOutput mfccStub [] = some M ∧
      M.rows = (([] : List ℕ).map (fun s => (mfccStub s).cols)).sum ∧
      M.cols = 20) :=
  ⟨by decide, audioFeats_shape mfccStub [0, 1] (by decide),
    audioFeats_shape mfccStub [] (by decide)⟩

/-- C8: for inception_v3 the batch is NOT built at 299 × 299. `main`'s
per-model assignments to C, H, W are function-local (no `global`
declaration), so `extract_image_feats` allocates the batch from the
module globals 3 × 224 × 224 for every model — contradicting the claim
for inception_v3, whose implied input resolution (bound by `main`'s own
branch, first component) is 299 × 299. -/
theorem inception_resolution_bug :
    (mainModelBranch "inception_v3" moduleGlobals).1 = some (3, 299, 299) ∧
    extractBatchShape "inception_v3" 80 = [80, 3, 224, 224] ∧
    extractBatchShape "inception_v3" 80 ≠ [80, 3, 299, 299] ∧
    extractBatchShape "resnet152" 80 = [80, 3, 224, 224] ∧
    extractBatchShape "vgg16" 80 = [80, 3, 224, 224] := by
  refine ⟨by decide, by decide, by decide, by decide, by decide⟩

/-- C9 counterexample: for the path dir/my.video.mp4 the computed
identifier is "my" — the filename truncated at its FIRST dot — not the
filename minus its extension, "my.video". -/
theorem videoId_dotted_cex :
    videoId ("dir/my.video.mp4".toList) = "my".toList ∧
    videoId ("dir/my.video.mp4".toList) ≠ "my.video".toList := by
  refine ⟨by decide, by decide⟩

/-- C9 amended: the video identifier is the portion of the filename
before its first dot: for any directory prefix and any filename
stem.ext whose stem contains no dot (and no slash), the identifier is
the stem, i.e. the filename minus its extension; filenames with dots
before the extension are instead truncated at the first dot. -/
theorem videoId_first_dot (dir stem ext : List Char)
    (h1 : '/' ∉ stem) (h2 : '/' ∉ ext) (h3 : '.' ∉ stem) :
    videoId (dir ++ '/' :: (stem ++ '.' :: ext)) = stem := by
  unfold videoId
  have hnm : '/' ∉ stem ++ '.' :: ext := by
    intro hmem
    rcases List.mem_append.mp hmem with hmm | hmm
    · exact h1 hmm
    · rcases List.mem_cons.mp hmm with hmm | hmm
      · exact absurd hmm (by decide)
      · exact h2 hmm
  have hbase : (pySplit '/' (dir ++ '/' :: (stem ++ '.' :: ext))).getLastD [] =
      stem ++ '.' :: ext := by
    rw [pySplit_getLastD_append, pySplit_of_not_mem hnm]
    rfl
  rw [hbase]
  exact pySplit_headD_append h3 ext []

/-- C9 witness: videos/clip01.mp4 gets identifier clip01. -/
theorem videoId_first_dot_inst :
    ('/' ∉ "clip01".toList) ∧ ('/' ∉ "mp4".toList) ∧ ('.' ∉ "clip01".toList) ∧
    videoId ("videos".toList ++ '/' :: ("clip01".toList ++ '.' :: "mp4".toList)) =
      "clip01".toList :=
  ⟨by decide, by decide, by decide,
    videoId_first_dot "videos".toList "clip01".toList "mp4".toList
      (by decide) (by decide) (by decide)⟩

/-- C10: for every model name outside the supported set, the selection
chain binds no encoder (no default is substituted), the unsupported-model
message is printed, and main terminates with an error (UnboundLocalError
at `model.last_linear = ...`) before `extract_image_feats` runs, so no
`video.npy` artifact is written. -/
theorem unsupported_model_terminates (modelName : String)
    (h1 : modelName ≠ "resnet152") (h2 : modelName ≠ "inception_v3")
    (h3 : modelName ≠ "vgg16") :
    mainImageStage modelName = ⟨true, true, false⟩ := by
  unfold mainImageStage mainModelBranch
  rw [if_neg h1, if_neg h2, if_neg h3]

/-- C10 witness: the unsupported name alexnet. -/
theorem unsupported_model_terminates_inst :
    mainImageStage "alexnet" = ⟨true, true, false⟩ :=
  unsupported_model_terminates "alexnet" (by decide) (by decide) (by decide)
